import Mathlib

/-!
Verification of the `dragon::token` lexing framework (src/src/lib.rs).

The Rust module drives a client-supplied DFA (the `State` trait) over a
borrowed string, one character at a time, and yields `(Result<Token, Error>,
&str)` pairs.  The shallow embedding below mirrors that code over `List Char`:
the `Peekable<CharIndices>` cursor is represented by a character index `pos`,
and the byte offsets the Rust code stores are recovered through `byteOffset`,
which maps a character index to the byte offset of that character in the
UTF-8 encoding of the source.  Since `char_indices` only ever produces byte
offsets of character boundaries, the two representations are in
order-preserving bijection, and the byte-level facts are proved via
`byteOffset` where a claim needs them.
-/

namespace Dragon

/-- Step directives returned by `State::handle_char` (Rust enum `Step`):
skip the lexeme including the current character, consume and keep going
(optionally moving to a new state), finish a token (the flag tells whether the
current character is consumed), or abort with an error. -/
inductive Step (σ τ ε : Type) where
  | Discard : Step σ τ ε
  | Continue : Option σ → Step σ τ ε
  | Finish : τ → Bool → Step σ τ ε
  | Abort : ε → Step σ τ ε

/-- The Rust `State` trait plus its `Default` super-trait, bundled as a record:
`default` is the start state, `handle_char` the transition decision, and
`try_finish` the end-of-input finalization.  Both functions take `&self` in
Rust, hence are modelled as pure functions. -/
structure State (σ τ ε : Type) where
  default : σ
  handle_char : σ → Char → Step σ τ ε
  try_finish : σ → Option τ

/-- Rust `TokenResult<'a, T, E> = (Result<T, E>, &'a str)`. -/
abbrev TokenResult (τ ε : Type) := Except ε τ × List Char

/-- The `Lexer` struct: `src` is the borrowed source text as its character
sequence, `pos` the cursor of the `Peekable<CharIndices>` iterator as a
character index, `start` the current lexeme start (Rust stores the
corresponding byte offset; see `byteOffset`), `state` the automaton state and
`done` the terminal latch. -/
structure Lexer (σ : Type) where
  src : List Char
  pos : Nat
  start : Nat
  state : σ
  done : Bool
deriving DecidableEq

variable {σ τ ε : Type}

/-- Rust `lex`: a fresh lexer over `src`, in the default state. -/
def lex (M : State σ τ ε) (src : List Char) : Lexer σ :=
  ⟨src, 0, 0, M.default, false⟩

/-- Rust `Lexer::current_index`: the position of the peeked character, or the
source length when the iterator is exhausted. -/
def current_index (L : Lexer σ) : Nat := min L.pos L.src.length

/-- Rust `Lexer::current_char`: peek the next unconsumed character. -/
def current_char (L : Lexer σ) : Option Char := L.src[L.pos]?

/-- Rust `Lexer::advance`: step the iterator (a no-op at end of input, like
`Iterator::next` returning `None`). -/
def advance (L : Lexer σ) : Lexer σ :=
  if L.pos < L.src.length then { L with pos := L.pos + 1 } else L

/-- Rust `Lexer::discard_lexeme`: reset the state, consume the current
character, and restart the lexeme after it. -/
def discard_lexeme (M : State σ τ ε) (L : Lexer σ) : Lexer σ :=
  let L1 := advance { L with state := M.default }
  { L1 with start := current_index L1 }

/-- The slice `&src[a..b]` of the source, with `a` and `b` as character
indices. -/
def slice (src : List Char) (a b : Nat) : List Char := (src.drop a).take (b - a)

/-- Rust `Lexer::finish_token`: reset the state, optionally consume the
current character, and emit the pair of the result and the lexeme from the old
`start` to the current index, replacing `start` by that index. -/
def finish_token (M : State σ τ ε) (L : Lexer σ) (tok : Except ε τ) (consume : Bool) :
    TokenResult τ ε × Lexer σ :=
  let L1 := { L with state := M.default }
  let L2 := if consume then advance L1 else L1
  let e := current_index L2
  ((tok, slice L2.src L2.start e), { L2 with start := e })

/-- The tail of Rust `Lexer::next` after the `while` loop: latch `done`, then
consult `try_finish` on the current state; emit a final token or nothing. -/
def lexEnd (M : State σ τ ε) (L : Lexer σ) : Option (TokenResult τ ε) × Lexer σ :=
  let L1 := { L with done := true }
  match M.try_finish L1.state with
  | some t =>
    let r := finish_token M L1 (Except.ok t) false
    (some r.1, r.2)
  | none => (none, L1)

/-- The `while let Some(c) = self.current_char()` loop of Rust `Lexer::next`.
`fuel` is an upper bound on the number of unconsumed characters (the loop
consumes one character per iteration that does not return, so the Rust loop
performs at most `src.length - pos` iterations); `lexLoop` below supplies
exactly that bound.  Whenever `L.src.length ≤ L.pos + fuel`, fuel exhaustion
coincides with input exhaustion, so the function agrees with the Rust loop. -/
def lexLoopGo (M : State σ τ ε) : Nat → Lexer σ → Option (TokenResult τ ε) × Lexer σ
  | 0, L => lexEnd M L
  | fuel + 1, L =>
    match L.src[L.pos]? with
    | none => lexEnd M L
    | some c =>
      match M.handle_char L.state c with
      | Step.Discard => lexLoopGo M fuel (discard_lexeme M L)
      | Step.Continue none => lexLoopGo M fuel (advance L)
      | Step.Continue (some s) => lexLoopGo M fuel (advance { L with state := s })
      | Step.Finish t consume =>
        let r := finish_token M L (Except.ok t) consume
        (some r.1, r.2)
      | Step.Abort e =>
        let r := finish_token M { L with done := true } (Except.error e) true
        (some r.1, r.2)

/-- The loop of Rust `Lexer::next`, entered with the exact remaining-input
bound. -/
def lexLoop (M : State σ τ ε) (L : Lexer σ) : Option (TokenResult τ ε) × Lexer σ :=
  lexLoopGo M (L.src.length - L.pos) L

/-- Rust `Lexer::next` (the `Iterator` implementation): one pull.  It returns
the produced item together with the updated lexer (state passing replaces the
`&mut self` mutation). -/
def next (M : State σ τ ε) (L : Lexer σ) : Option (TokenResult τ ε) × Lexer σ :=
  if L.done then (none, L) else lexLoop M L

/-- The lexer after one pull. -/
def stepLexer (M : State σ τ ε) (L : Lexer σ) : Lexer σ := (next M L).2

/-- The lexer after `n` pulls. -/
def skipPulls (M : State σ τ ε) (L : Lexer σ) : Nat → Lexer σ
  | 0 => L
  | n + 1 => stepLexer M (skipPulls M L n)

/-- The items produced by the first `n` pulls. -/
def pulls (M : State σ τ ε) (L : Lexer σ) : Nat → List (Option (TokenResult τ ε))
  | 0 => []
  | n + 1 => (next M L).1 :: pulls M (stepLexer M L) n

/-- Byte offset, in the UTF-8 encoding of `src`, of the character at character
index `i` (or of the end of the text): exactly the offsets that Rust
`char_indices` yields, together with `src.len()`. -/
def byteOffset (src : List Char) (i : Nat) : Nat :=
  ((src.take i).map Char.utf8Size).sum

/-- Length in bytes of the UTF-8 encoding of a character sequence. -/
def utf8Len (s : List Char) : Nat := (s.map Char.utf8Size).sum

/-- Structural invariant of a lexer: the lexeme start does not exceed the
cursor, and the cursor does not exceed the source length.  It holds for
`lex M src` and is preserved by every pull. -/
def Inv (L : Lexer σ) : Prop := L.start ≤ L.pos ∧ L.pos ≤ L.src.length

/-- `tiles a b l` states that the half-open intervals in `l` exactly cover
`[a, b)` in order: each interval begins where the previous one ended, with no
gap and no overlap. -/
def tiles : Nat → Nat → List (Nat × Nat) → Prop
  | a, b, [] => a = b
  | a, b, (x, y) :: rest => a = x ∧ x ≤ y ∧ tiles y b rest

/-- A sample client automaton, after the crate's doc example: skip blanks,
recognize maximal digit runs as tokens (finishing on the first non-digit
without consuming it, or at end of input), and abort on any other character at
the start of a lexeme. -/
inductive DS where
  | start : DS
  | num : DS
deriving DecidableEq

/-- The digit-run automaton as a `State` instance. -/
def MD : State DS Unit Char where
  default := DS.start
  handle_char := fun s c =>
    match s with
    | DS.start =>
      if c = ' ' then Step.Discard
      else if c.isDigit then Step.Continue (some DS.num)
      else Step.Abort c
    | DS.num => if c.isDigit then Step.Continue none else Step.Finish () false
  try_finish := fun s =>
    match s with
    | DS.start => none
    | DS.num => some ()

/-- A degenerate client whose transition always finishes without consuming:
every pull emits an empty lexeme and makes no progress. -/
def MBad : State Unit Unit Unit where
  default := ()
  handle_char := fun _ _ => Step.Finish () false
  try_finish := fun _ => none

/-- A client whose `try_finish` accepts even the start state. -/
def MEnd : State Unit Unit Unit where
  default := ()
  handle_char := fun _ _ => Step.Discard
  try_finish := fun _ => some ()

example :
    pulls MD (lex MD ['1', '2', ' ', '3']) 3 =
      [some (Except.ok (), ['1', '2']), some (Except.ok (), ['3']), none] := by
  rfl

example :
    (next MD (lex MD ['@', '1'])).1 = some (Except.error '@', ['@']) := by
  rfl

/-! Helper lemmas: computed forms of the engine's pieces. -/

lemma next_of_done (M : State σ τ ε) (L : Lexer σ) (hd : L.done = true) :
    next M L = (none, L) := by
  simp [next, hd]

lemma stepLexer_of_done (M : State σ τ ε) (L : Lexer σ) (hd : L.done = true) :
    stepLexer M L = L := by
  simp [stepLexer, next_of_done M L hd]

lemma skipPulls_of_done (M : State σ τ ε) (L : Lexer σ) (hd : L.done = true) :
    ∀ n, skipPulls M L n = L := by
  intro n
  induction n with
  | zero => rfl
  | succ n ih => rw [skipPulls, ih, stepLexer_of_done M L hd]

lemma latch_of_done (M : State σ τ ε) (L : Lexer σ) (hd : L.done = true) :
    ∀ n, (next M (skipPulls M L n)).1 = none := by
  intro n
  rw [skipPulls_of_done M L hd, next_of_done M L hd]

lemma skipPulls_add (M : State σ τ ε) (L : Lexer σ) (a b : Nat) :
    skipPulls M L (a + b) = skipPulls M (skipPulls M L a) b := by
  induction b with
  | zero => rfl
  | succ b ih => rw [← Nat.add_assoc, skipPulls, skipPulls, ih]

lemma finish_token_false_eq (M : State σ τ ε) (L : Lexer σ) (tok : Except ε τ) :
    finish_token M L tok false =
      ((tok, slice L.src L.start (current_index L)),
        ⟨L.src, L.pos, current_index L, M.default, L.done⟩) := by
  simp [finish_token, current_index]

lemma finish_token_true_eq (M : State σ τ ε) (L : Lexer σ) (tok : Except ε τ)
    (h : L.pos < L.src.length) :
    finish_token M L tok true =
      ((tok, slice L.src L.start (L.pos + 1)),
        ⟨L.src, L.pos + 1, L.pos + 1, M.default, L.done⟩) := by
  have hm : min (L.pos + 1) L.src.length = L.pos + 1 := by omega
  simp [finish_token, advance, current_index, h, hm]

lemma lexEnd_some_eq (M : State σ τ ε) (L : Lexer σ) (t : τ)
    (ht : M.try_finish L.state = some t) :
    lexEnd M L =
      (some (Except.ok t, slice L.src L.start (current_index L)),
        ⟨L.src, L.pos, current_index L, M.default, true⟩) := by
  simp [lexEnd, ht, finish_token, current_index]

lemma lexEnd_none_eq (M : State σ τ ε) (L : Lexer σ)
    (ht : M.try_finish L.state = none) :
    lexEnd M L = (none, ⟨L.src, L.pos, L.start, L.state, true⟩) := by
  simp [lexEnd, ht]

lemma go_zero_eq (M : State σ τ ε) (L : Lexer σ) :
    lexLoopGo M 0 L = lexEnd M L := rfl

lemma go_none_eq (M : State σ τ ε) (f : Nat) (L : Lexer σ)
    (hc : L.src[L.pos]? = none) :
    lexLoopGo M (f + 1) L = lexEnd M L := by
  simp [lexLoopGo, hc]

lemma go_discard_eq (M : State σ τ ε) (f : Nat) (L : Lexer σ) (c : Char)
    (hc : L.src[L.pos]? = some c) (hs : M.handle_char L.state c = Step.Discard) :
    lexLoopGo M (f + 1) L = lexLoopGo M f (discard_lexeme M L) := by
  simp [lexLoopGo, hc, hs]

lemma go_cont_eq (M : State σ τ ε) (f : Nat) (L : Lexer σ) (c : Char) (ost : Option σ)
    (hc : L.src[L.pos]? = some c) (hs : M.handle_char L.state c = Step.Continue ost) :
    lexLoopGo M (f + 1) L = lexLoopGo M f (advance { L with state := ost.getD L.state }) := by
  cases ost with
  | none => simp [lexLoopGo, hc, hs]
  | some s => simp [lexLoopGo, hc, hs]

lemma go_finish_eq (M : State σ τ ε) (f : Nat) (L : Lexer σ) (c : Char) (t : τ) (b : Bool)
    (hc : L.src[L.pos]? = some c) (hs : M.handle_char L.state c = Step.Finish t b) :
    lexLoopGo M (f + 1) L =
      (some (finish_token M L (Except.ok t) b).1, (finish_token M L (Except.ok t) b).2) := by
  simp [lexLoopGo, hc, hs]

lemma go_abort_eq (M : State σ τ ε) (f : Nat) (L : Lexer σ) (c : Char) (e : ε)
    (hc : L.src[L.pos]? = some c) (hs : M.handle_char L.state c = Step.Abort e) :
    lexLoopGo M (f + 1) L =
      (some (finish_token M { L with done := true } (Except.error e) true).1,
        (finish_token M { L with done := true } (Except.error e) true).2) := by
  simp [lexLoopGo, hc, hs]

lemma discard_lexeme_eq (M : State σ τ ε) (L : Lexer σ) (c : Char)
    (hc : L.src[L.pos]? = some c) :
    discard_lexeme M L = ⟨L.src, L.pos + 1, L.pos + 1, M.default, L.done⟩ := by
  have hlt : L.pos < L.src.length := by
    have := List.getElem?_eq_some_iff.mp hc
    exact this.1
  simp [discard_lexeme, advance, current_index, hlt]
  omega

/-! Helper lemmas about `tiles`. -/

lemma tiles_le (l : List (Nat × Nat)) : ∀ a b, tiles a b l → a ≤ b := by
  induction l with
  | nil => intro a b h; exact Nat.le_of_eq h
  | cons p rest ih =>
    intro a b h
    obtain ⟨hax, hxy, hrest⟩ := h
    exact hax ▸ Nat.le_trans hxy (ih _ _ hrest)

lemma tiles_mem (l : List (Nat × Nat)) :
    ∀ a b x y, tiles a b l → (x, y) ∈ l → a ≤ x ∧ x ≤ y ∧ y ≤ b := by
  induction l with
  | nil => intro a b x y _ hm; cases hm
  | cons p rest ih =>
    intro a b x y h hm
    obtain ⟨hax, hxy, hrest⟩ := h
    rcases List.mem_cons.mp hm with heq | hmem
    · subst heq
      exact ⟨Nat.le_of_eq hax, hxy, tiles_le rest _ _ hrest⟩
    · have h3 := ih _ _ x y hrest hmem
      exact ⟨hax ▸ Nat.le_trans hxy h3.1, h3.2.1, h3.2.2⟩

lemma pos_lt_of_peek {L : Lexer σ} {c : Char} (hc : L.src[L.pos]? = some c) :
    L.pos < L.src.length :=
  (List.getElem?_eq_some_iff.mp hc).1

/-- Facts about the end-of-input branch: source preserved, cursor unmoved,
terminal latch set, and (under the invariant) any emitted lexeme is a
well-formed span ending at the new lexeme start. -/
lemma lexEnd_main (M : State σ τ ε) (L : Lexer σ) :
    (lexEnd M L).2.src = L.src ∧
    L.pos ≤ (lexEnd M L).2.pos ∧
    ((lexEnd M L).2.done = true ∨ (lexEnd M L).2.state = M.default) ∧
    ((lexEnd M L).1 = none → (lexEnd M L).2.done = true) ∧
    (Inv L →
      Inv (lexEnd M L).2 ∧
      L.start ≤ (lexEnd M L).2.start ∧
      (lexEnd M L).2.start ≤ L.src.length ∧
      ∀ x, (lexEnd M L).1 = some x →
        ∃ ds a, tiles L.start (lexEnd M L).2.start (ds ++ [(a, (lexEnd M L).2.start)]) ∧
          x.2 = slice L.src a (lexEnd M L).2.start) := by
  cases ht : M.try_finish L.state with
  | none =>
    rw [lexEnd_none_eq M L ht]
    refine ⟨rfl, Nat.le_refl _, Or.inl rfl, fun _ => rfl, fun hInv => ?_⟩
    obtain ⟨h1, h2⟩ := hInv
    exact ⟨⟨h1, h2⟩, Nat.le_refl _, Nat.le_trans h1 h2, fun x hx => nomatch hx⟩
  | some t =>
    rw [lexEnd_some_eq M L t ht]
    refine ⟨rfl, Nat.le_refl _, Or.inr rfl, fun _ => rfl, fun hInv => ?_⟩
    obtain ⟨h1, h2⟩ := hInv
    have he : current_index L = L.pos := Nat.min_eq_left h2
    refine ⟨⟨?_, h2⟩, ?_, ?_, fun x hx => ?_⟩
    · exact Nat.le_of_eq he
    · exact he ▸ h1
    · exact he ▸ h2
    · injection hx with hx'
      subst hx'
      exact ⟨[], L.start, ⟨rfl, he ▸ h1, rfl⟩, rfl⟩

/-- Main facts about the pull loop, by induction on the fuel: the source is
preserved, the cursor and lexeme start never move backwards, the automaton
state is reset at every exit (unless the terminal latch is set), a `none`
item latches the engine, and — under the invariant — the consumed region of
a pull that emits an item is exactly tiled by the discarded spans followed by
the emitted lexeme's span, which ends at the new lexeme start. -/
lemma go_main (M : State σ τ ε) :
    ∀ fuel (L : Lexer σ),
      (lexLoopGo M fuel L).2.src = L.src ∧
      L.pos ≤ (lexLoopGo M fuel L).2.pos ∧
      ((lexLoopGo M fuel L).2.done = true ∨ (lexLoopGo M fuel L).2.state = M.default) ∧
      ((lexLoopGo M fuel L).1 = none → (lexLoopGo M fuel L).2.done = true) ∧
      (Inv L →
        Inv (lexLoopGo M fuel L).2 ∧
        L.start ≤ (lexLoopGo M fuel L).2.start ∧
        (lexLoopGo M fuel L).2.start ≤ L.src.length ∧
        ∀ x, (lexLoopGo M fuel L).1 = some x →
          ∃ ds a,
            tiles L.start (lexLoopGo M fuel L).2.start (ds ++ [(a, (lexLoopGo M fuel L).2.start)]) ∧
            x.2 = slice L.src a (lexLoopGo M fuel L).2.start) := by
  intro fuel
  induction fuel with
  | zero => intro L; rw [go_zero_eq]; exact lexEnd_main M L
  | succ f ih =>
    intro L
    cases hc : L.src[L.pos]? with
    | none => rw [go_none_eq M f L hc]; exact lexEnd_main M L
    | some c =>
      have hlt : L.pos < L.src.length := pos_lt_of_peek hc
      cases hs : M.handle_char L.state c with
      | Discard =>
        rw [go_discard_eq M f L c hc hs, discard_lexeme_eq M L c hc]
        obtain ⟨i1, i2, i3, i4, i5⟩ := ih ⟨L.src, L.pos + 1, L.pos + 1, M.default, L.done⟩
        dsimp only at i1 i2 i3 i4 i5 ⊢
        refine ⟨i1, by omega, i3, i4, fun hInv => ?_⟩
        obtain ⟨h1, h2⟩ := hInv
        obtain ⟨j1, j2, j3, j4⟩ := i5 ⟨Nat.le_refl _, by dsimp only; omega⟩
        refine ⟨j1, by omega, j3, fun x hx => ?_⟩
        obtain ⟨ds, a, hds, hsl⟩ := j4 x hx
        exact ⟨(L.start, L.pos + 1) :: ds, a, ⟨rfl, by omega, hds⟩, hsl⟩
      | Continue ost =>
        rw [go_cont_eq M f L c ost hc hs]
        have hadv : advance { L with state := ost.getD L.state } =
            ⟨L.src, L.pos + 1, L.start, ost.getD L.state, L.done⟩ := by
          simp [advance, hlt]
        rw [hadv]
        obtain ⟨i1, i2, i3, i4, i5⟩ := ih ⟨L.src, L.pos + 1, L.start, ost.getD L.state, L.done⟩
        dsimp only at i1 i2 i3 i4 i5 ⊢
        refine ⟨i1, by omega, i3, i4, fun hInv => ?_⟩
        obtain ⟨h1, h2⟩ := hInv
        obtain ⟨j1, j2, j3, j4⟩ := i5 ⟨by dsimp only; omega, by dsimp only; omega⟩
        exact ⟨j1, by omega, j3, j4⟩
      | Finish t b =>
        rw [go_finish_eq M f L c t b hc hs]
        cases b with
        | true =>
          rw [finish_token_true_eq M L (Except.ok t) hlt]
          refine ⟨?_, ?_, ?_, ?_, ?_⟩
          · rfl
          · dsimp only; omega
          · exact Or.inr rfl
          · intro hx; exact absurd hx (by simp)
          · intro hInv
            obtain ⟨h1, h2⟩ := hInv
            refine ⟨⟨?_, ?_⟩, ?_, ?_, fun x hx => ?_⟩
            · dsimp only; omega
            · dsimp only; omega
            · dsimp only; omega
            · dsimp only; omega
            · injection hx with hx'
              subst hx'
              exact ⟨[], L.start, ⟨rfl, by dsimp only; omega, rfl⟩, rfl⟩
        | false =>
          rw [finish_token_false_eq M L (Except.ok t)]
          refine ⟨?_, ?_, ?_, ?_, ?_⟩
          · rfl
          · exact Nat.le_refl _
          · exact Or.inr rfl
          · intro hx; exact absurd hx (by simp)
          · intro hInv
            obtain ⟨h1, h2⟩ := hInv
            refine ⟨⟨?_, ?_⟩, ?_, ?_, fun x hx => ?_⟩
            · dsimp only [current_index]; omega
            · dsimp only [current_index]; omega
            · dsimp only [current_index]; omega
            · dsimp only [current_index]; omega
            · injection hx with hx'
              subst hx'
              exact ⟨[], L.start, ⟨rfl, by dsimp only [current_index]; omega, rfl⟩, rfl⟩
      | Abort e =>
        rw [go_abort_eq M f L c e hc hs,
          finish_token_true_eq M { L with done := true } (Except.error e) hlt]
        refine ⟨?_, ?_, ?_, ?_, ?_⟩
        · rfl
        · dsimp only; omega
        · exact Or.inl rfl
        · intro hx; exact absurd hx (by simp)
        · intro hInv
          obtain ⟨h1, h2⟩ := hInv
          refine ⟨⟨?_, ?_⟩, ?_, ?_, fun x hx => ?_⟩
          · dsimp only; omega
          · dsimp only; omega
          · dsimp only; omega
          · dsimp only; omega
          · injection hx with hx'
            subst hx'
            exact ⟨[], L.start, ⟨rfl, by dsimp only; omega, rfl⟩, rfl⟩

lemma lexEnd_done_eq (M : State σ τ ε) (L : Lexer σ) : (lexEnd M L).2.done = true := by
  cases ht : M.try_finish L.state with
  | none => rw [lexEnd_none_eq M L ht]
  | some t => rw [lexEnd_some_eq M L t ht]

lemma lexEnd_no_err (M : State σ τ ε) (L : Lexer σ) :
    ∀ x, (lexEnd M L).1 = some x → ∀ e : ε, x.1 ≠ Except.error e := by
  intro x hx e he
  cases ht : M.try_finish L.state with
  | none => rw [lexEnd_none_eq M L ht] at hx; exact absurd hx (by simp)
  | some t =>
    rw [lexEnd_some_eq M L t ht] at hx
    injection hx with hx'
    subst hx'
    exact absurd he (by simp)

/-- Provenance of an error item: it can only arise from an `Abort` directive,
whose character is consumed, whose lexeme ends just after it, and which sets
the terminal latch. -/
lemma go_err (M : State σ τ ε) :
    ∀ fuel (L : Lexer σ), Inv L →
      ∀ x, (lexLoopGo M fuel L).1 = some x →
        ∀ e, x.1 = Except.error e →
          ∃ j c st s0,
            L.pos ≤ j ∧ s0 ≤ j ∧ L.src[j]? = some c ∧
            M.handle_char st c = Step.Abort e ∧
            (lexLoopGo M fuel L).2.pos = j + 1 ∧
            (lexLoopGo M fuel L).2.start = j + 1 ∧
            (lexLoopGo M fuel L).2.done = true ∧
            x.2 = slice L.src s0 (j + 1) := by
  intro fuel
  induction fuel with
  | zero =>
    intro L _ x hx e he
    rw [go_zero_eq] at hx ⊢
    exact absurd he (lexEnd_no_err M L x hx e)
  | succ f ih =>
    intro L hInv x hx e he
    have h1 := hInv.1
    have h2 := hInv.2
    cases hc : L.src[L.pos]? with
    | none =>
      rw [go_none_eq M f L hc] at hx ⊢
      exact absurd he (lexEnd_no_err M L x hx e)
    | some c =>
      have hlt : L.pos < L.src.length := pos_lt_of_peek hc
      cases hs : M.handle_char L.state c with
      | Discard =>
        rw [go_discard_eq M f L c hc hs, discard_lexeme_eq M L c hc] at hx ⊢
        obtain ⟨j, c', st, s0, hj⟩ :=
          ih ⟨L.src, L.pos + 1, L.pos + 1, M.default, L.done⟩
            ⟨Nat.le_refl _, by dsimp only; omega⟩ x hx e he
        dsimp only at hj
        exact ⟨j, c', st, s0, by omega, hj.2.1, hj.2.2.1, hj.2.2.2.1, hj.2.2.2.2.1,
          hj.2.2.2.2.2.1, hj.2.2.2.2.2.2.1, hj.2.2.2.2.2.2.2⟩
      | Continue ost =>
        rw [go_cont_eq M f L c ost hc hs] at hx ⊢
        have hadv : advance { L with state := ost.getD L.state } =
            ⟨L.src, L.pos + 1, L.start, ost.getD L.state, L.done⟩ := by
          simp [advance, hlt]
        rw [hadv] at hx ⊢
        obtain ⟨j, c', st, s0, hj⟩ :=
          ih ⟨L.src, L.pos + 1, L.start, ost.getD L.state, L.done⟩
            ⟨by dsimp only; omega, by dsimp only; omega⟩ x hx e he
        dsimp only at hj
        exact ⟨j, c', st, s0, by omega, hj.2.1, hj.2.2.1, hj.2.2.2.1, hj.2.2.2.2.1,
          hj.2.2.2.2.2.1, hj.2.2.2.2.2.2.1, hj.2.2.2.2.2.2.2⟩
      | Finish t b =>
        rw [go_finish_eq M f L c t b hc hs] at hx
        injection hx with hx'
        subst hx'
        cases b with
        | true => rw [finish_token_true_eq M L (Except.ok t) hlt] at he; exact absurd he (by simp)
        | false => rw [finish_token_false_eq M L (Except.ok t)] at he; exact absurd he (by simp)
      | Abort e' =>
        rw [go_abort_eq M f L c e' hc hs] at hx ⊢
        rw [finish_token_true_eq M { L with done := true } (Except.error e') hlt] at hx ⊢
        injection hx with hx'
        subst hx'
        have he' : e' = e := by
          have := he
          dsimp only at this
          exact Except.error.inj this
        subst he'
        exact ⟨L.pos, c, L.state, L.start, Nat.le_refl _, hInv.1, hc, hs, rfl, rfl, rfl, rfl⟩

/-- Provenance of a non-terminal item: if a pull emits an item and the engine
is not latched afterwards, the item came from a `Finish` directive at or after
the entry cursor. -/
lemma go_fin (M : State σ τ ε) :
    ∀ fuel (L : Lexer σ),
      ∀ x, (lexLoopGo M fuel L).1 = some x →
        (lexLoopGo M fuel L).2.done = false →
          ∃ j st c t b, L.pos ≤ j ∧ L.src[j]? = some c ∧
            M.handle_char st c = Step.Finish t b ∧ x.1 = Except.ok t := by
  intro fuel
  induction fuel with
  | zero =>
    intro L x _ hdone
    rw [go_zero_eq] at hdone
    exact absurd (lexEnd_done_eq M L) (by rw [hdone]; simp)
  | succ f ih =>
    intro L x hx hdone
    cases hc : L.src[L.pos]? with
    | none =>
      rw [go_none_eq M f L hc] at hdone
      exact absurd (lexEnd_done_eq M L) (by rw [hdone]; simp)
    | some c =>
      have hlt : L.pos < L.src.length := pos_lt_of_peek hc
      cases hs : M.handle_char L.state c with
      | Discard =>
        rw [go_discard_eq M f L c hc hs, discard_lexeme_eq M L c hc] at hx hdone
        obtain ⟨j, st, c', t, b, hj⟩ :=
          ih ⟨L.src, L.pos + 1, L.pos + 1, M.default, L.done⟩ x hx hdone
        dsimp only at hj
        exact ⟨j, st, c', t, b, by omega, hj.2.1, hj.2.2.1, hj.2.2.2⟩
      | Continue ost =>
        rw [go_cont_eq M f L c ost hc hs] at hx hdone
        have hadv : advance { L with state := ost.getD L.state } =
            ⟨L.src, L.pos + 1, L.start, ost.getD L.state, L.done⟩ := by
          simp [advance, hlt]
        rw [hadv] at hx hdone
        obtain ⟨j, st, c', t, b, hj⟩ :=
          ih ⟨L.src, L.pos + 1, L.start, ost.getD L.state, L.done⟩ x hx hdone
        dsimp only at hj
        exact ⟨j, st, c', t, b, by omega, hj.2.1, hj.2.2.1, hj.2.2.2⟩
      | Finish t b =>
        rw [go_finish_eq M f L c t b hc hs] at hx
        injection hx with hx'
        subst hx'
        refine ⟨L.pos, L.state, c, t, b, Nat.le_refl _, hc, hs, ?_⟩
        cases b with
        | true => rw [finish_token_true_eq M L (Except.ok t) hlt]
        | false => rw [finish_token_false_eq M L (Except.ok t)]
      | Abort e =>
        rw [go_abort_eq M f L c e hc hs,
          finish_token_true_eq M { L with done := true } (Except.error e) hlt] at hdone
        exact absurd hdone (by simp)

/-- Progress: if the automaton is in the start state at the beginning of a
pull and the client never finishes-without-consuming from the start state,
then the pull either latches the engine or strictly advances the cursor. -/
lemma go_progress (M : State σ τ ε)
    (hne : ∀ c t, M.handle_char M.default c ≠ Step.Finish t false) :
    ∀ fuel (L : Lexer σ), L.state = M.default →
      (lexLoopGo M fuel L).2.done = true ∨ L.pos < (lexLoopGo M fuel L).2.pos := by
  intro fuel L hst
  cases fuel with
  | zero => exact Or.inl (go_zero_eq M L ▸ lexEnd_done_eq M L)
  | succ f =>
    cases hc : L.src[L.pos]? with
    | none => exact Or.inl (go_none_eq M f L hc ▸ lexEnd_done_eq M L)
    | some c =>
      have hlt : L.pos < L.src.length := pos_lt_of_peek hc
      cases hs : M.handle_char L.state c with
      | Discard =>
        right
        rw [go_discard_eq M f L c hc hs, discard_lexeme_eq M L c hc]
        have h2 := (go_main M f ⟨L.src, L.pos + 1, L.pos + 1, M.default, L.done⟩).2.1
        dsimp only at h2
        omega
      | Continue ost =>
        right
        rw [go_cont_eq M f L c ost hc hs]
        have hadv : advance { L with state := ost.getD L.state } =
            ⟨L.src, L.pos + 1, L.start, ost.getD L.state, L.done⟩ := by
          simp [advance, hlt]
        rw [hadv]
        have h2 := (go_main M f ⟨L.src, L.pos + 1, L.start, ost.getD L.state, L.done⟩).2.1
        dsimp only at h2
        omega
      | Finish t b =>
        cases b with
        | true =>
          right
          rw [go_finish_eq M f L c t true hc hs, finish_token_true_eq M L (Except.ok t) hlt]
          dsimp only
          omega
        | false =>
          rw [hst] at hs
          exact absurd hs (hne c t)
      | Abort e =>
        left
        rw [go_abort_eq M f L c e hc hs,
          finish_token_true_eq M { L with done := true } (Except.error e) hlt]

/-- Facts about a single pull of `next`, lifted from `go_main`. -/
lemma next_main (M : State σ τ ε) (L : Lexer σ) :
    (next M L).2.src = L.src ∧
    L.pos ≤ (next M L).2.pos ∧
    ((next M L).1 = none → (next M L).2.done = true) ∧
    (Inv L →
      Inv (next M L).2 ∧
      L.start ≤ (next M L).2.start ∧
      (next M L).2.start ≤ L.src.length ∧
      ∀ x, (next M L).1 = some x →
        ∃ ds a, tiles L.start (next M L).2.start (ds ++ [(a, (next M L).2.start)]) ∧
          x.2 = slice L.src a (next M L).2.start) := by
  by_cases hd : L.done = true
  · rw [next_of_done M L hd]
    exact ⟨rfl, Nat.le_refl _, fun _ => hd,
      fun hInv => ⟨hInv, Nat.le_refl _, Nat.le_trans hInv.1 hInv.2,
        fun x hx => absurd hx (by simp)⟩⟩
  · have hd' : L.done = false := by simpa using hd
    have hnl : next M L = lexLoopGo M (L.src.length - L.pos) L := by
      simp [next, hd', lexLoop]
    rw [hnl]
    obtain ⟨g1, g2, g3, g4, g5⟩ := go_main M (L.src.length - L.pos) L
    exact ⟨g1, g2, g4, g5⟩

lemma next_none_done (M : State σ τ ε) (L : Lexer σ)
    (h : (next M L).1 = none) : (next M L).2.done = true :=
  (next_main M L).2.2.1 h

/-- The invariant, the source and the lexeme-start lower bound persist over
any number of pulls. -/
lemma skipPulls_main (M : State σ τ ε) (L : Lexer σ) (hInv : Inv L) :
    ∀ n, Inv (skipPulls M L n) ∧ (skipPulls M L n).src = L.src ∧
      L.start ≤ (skipPulls M L n).start := by
  intro n
  induction n with
  | zero => exact ⟨hInv, rfl, Nat.le_refl _⟩
  | succ n ih =>
    obtain ⟨j1, j2, j3⟩ := ih
    have hm := next_main M (skipPulls M L n)
    obtain ⟨k1, k2, k3, k4⟩ := hm
    obtain ⟨m1, m2, m3, m4⟩ := k4 j1
    exact ⟨m1, by rw [skipPulls, stepLexer, k1, j2], Nat.le_trans j3 m2⟩

lemma latch_after_one (M : State σ τ ε) (L : Lexer σ)
    (h : (stepLexer M L).done = true) :
    ∀ k, 1 ≤ k → (next M (skipPulls M L k)).1 = none := by
  intro k hk
  have hsk : skipPulls M L k = skipPulls M (stepLexer M L) (k - 1) := by
    conv_lhs => rw [show k = 1 + (k - 1) by omega]
    rw [skipPulls_add]
    rfl
  rw [hsk, skipPulls_of_done M _ h, next_of_done M _ h]

lemma byteOffset_slice (src : List Char) (a b : Nat) :
    byteOffset src a + utf8Len (slice src a b) = byteOffset src (a + (b - a)) := by
  unfold byteOffset utf8Len slice
  rw [List.take_add, List.map_append, List.sum_append]

/-! The claims. -/

/-- C1: for every source text and `State` implementation, once `handle_char`
returns `Abort(e)`, the engine consumes the current character (the cursor and
the new lexeme start sit just past the aborting character), yields exactly one
error result — `Err(e)` paired with the accumulated lexeme text including
that character — and every subsequent call to `next` returns `None`,
regardless of how much unconsumed source text remains. -/
theorem claim_C1_abort_latch (M : State σ τ ε) (L : Lexer σ) (e : ε) (s : List Char)
    (L' : Lexer σ) (hInv : Inv L)
    (h : next M L = (some (Except.error e, s), L')) :
    L'.done = true ∧
    (∃ j c st s0, L.pos ≤ j ∧ s0 ≤ j ∧ L.src[j]? = some c ∧
      M.handle_char st c = Step.Abort e ∧ L'.pos = j + 1 ∧ L'.start = j + 1 ∧
      s = slice L.src s0 (j + 1)) ∧
    ∀ n, (next M (skipPulls M L' n)).1 = none := by
  by_cases hd : L.done = true
  · rw [next_of_done M L hd] at h
    exact absurd h (by simp)
  · have hd' : L.done = false := by simpa using hd
    have hnl : next M L = lexLoopGo M (L.src.length - L.pos) L := by
      simp [next, hd', lexLoop]
    rw [hnl] at h
    have hx1 : (lexLoopGo M (L.src.length - L.pos) L).1 = some (Except.error e, s) := by
      rw [h]
    have hx2 : (lexLoopGo M (L.src.length - L.pos) L).2 = L' := by rw [h]
    obtain ⟨j, c, st, s0, hj1, hj2, hj3, hj4, hj5, hj6, hj7, hj8⟩ :=
      go_err M (L.src.length - L.pos) L hInv (Except.error e, s) hx1 e rfl
    rw [hx2] at hj5 hj6 hj7
    exact ⟨hj7, ⟨j, c, st, s0, hj1, hj2, hj3, hj4, hj5, hj6, hj8⟩,
      latch_of_done M L' hj7⟩

/-- C1 witness: the digit automaton aborts on `@` at offset 0; the single
pull consumes it, reports the error with lexeme `@`, and the stream stays
empty forever after. -/
theorem claim_C1_abort_latch_witness :
    (⟨['@'], 1, 1, DS.start, true⟩ : Lexer DS).done = true ∧
    (∃ j c st s0, (lex MD ['@']).pos ≤ j ∧ s0 ≤ j ∧ (lex MD ['@']).src[j]? = some c ∧
      MD.handle_char st c = Step.Abort '@' ∧
      (⟨['@'], 1, 1, DS.start, true⟩ : Lexer DS).pos = j + 1 ∧
      (⟨['@'], 1, 1, DS.start, true⟩ : Lexer DS).start = j + 1 ∧
      ['@'] = slice (lex MD ['@']).src s0 (j + 1)) ∧
    ∀ n, (next MD (skipPulls MD (⟨['@'], 1, 1, DS.start, true⟩ : Lexer DS) n)).1 = none :=
  claim_C1_abort_latch MD (lex MD ['@']) '@' ['@'] ⟨['@'], 1, 1, DS.start, true⟩
    ⟨by decide, by decide⟩ (by rfl)

/-- C2: when `handle_char` returns `Finish(token, false)` on lookahead
character `c` at position `i` (here `i = L.pos`, a character index; see
`byteOffset` for the byte offset correspondence), the emitted lexeme is
exactly `src[start..i)` — excluding `c` — the character `c` is not consumed,
and the resulting lexer re-inspects `c` from the start state as the first
character of the next lexeme, whose start offset is `i`. -/
theorem claim_C2_lookahead (M : State σ τ ε) (L : Lexer σ) (c : Char) (t : τ)
    (hc : L.src[L.pos]? = some c)
    (hf : M.handle_char L.state c = Step.Finish t false) :
    lexLoop M L = (some (Except.ok t, slice L.src L.start L.pos),
      ⟨L.src, L.pos, L.pos, M.default, L.done⟩) ∧
    current_char (⟨L.src, L.pos, L.pos, M.default, L.done⟩ : Lexer σ) = some c := by
  have hlt : L.pos < L.src.length := pos_lt_of_peek hc
  obtain ⟨k, hk⟩ : ∃ k, L.src.length - L.pos = k + 1 :=
    ⟨L.src.length - L.pos - 1, by omega⟩
  have hci : current_index L = L.pos := Nat.min_eq_left (Nat.le_of_lt hlt)
  constructor
  · unfold lexLoop
    rw [hk, go_finish_eq M k L c t false hc hf, finish_token_false_eq, hci]
  · simpa [current_char] using hc

/-- C2 witness: after consuming the digit `1`, the lookahead `+` finishes the
number token without being consumed; the next lexeme starts at the `+`. -/
theorem claim_C2_lookahead_witness :
    lexLoop MD (⟨['1', '+'], 1, 0, DS.num, false⟩ : Lexer DS) =
      (some (Except.ok (), slice ['1', '+'] 0 1),
        ⟨['1', '+'], 1, 1, DS.start, false⟩) ∧
    current_char (⟨['1', '+'], 1, 1, DS.start, false⟩ : Lexer DS) = some '+' :=
  claim_C2_lookahead MD ⟨['1', '+'], 1, 0, DS.num, false⟩ '+' () (by rfl) (by rfl)

/-- C3: if a pull reaches the end of the input without a `Finish` or `Abort`
directive, then: when `try_finish` on the current state yields `some t`, the
engine emits exactly one final result `(Ok t, s)` with `s` all text from the
current lexeme start to the end of the source, and every later call returns
`None`; when `try_finish` yields `none`, the pull returns `None`, every later
call returns `None`, and no token or error is ever produced for the trailing
partial text. -/
theorem claim_C3_eof_finalize (M : State σ τ ε) (L : Lexer σ)
    (hd : L.done = false) (hpos : L.src.length ≤ L.pos) :
    (∀ t, M.try_finish L.state = some t →
      next M L = (some (Except.ok t, slice L.src L.start L.src.length),
        ⟨L.src, L.pos, L.src.length, M.default, true⟩) ∧
      ∀ n, (next M (skipPulls M
        (⟨L.src, L.pos, L.src.length, M.default, true⟩ : Lexer σ) n)).1 = none) ∧
    (M.try_finish L.state = none →
      next M L = (none, ⟨L.src, L.pos, L.start, L.state, true⟩) ∧
      ∀ n, (next M (skipPulls M
        (⟨L.src, L.pos, L.start, L.state, true⟩ : Lexer σ) n)).1 = none) := by
  have hnl : next M L = lexLoopGo M (L.src.length - L.pos) L := by
    simp [next, hd, lexLoop]
  have hz : L.src.length - L.pos = 0 := by omega
  have hci : current_index L = L.src.length := Nat.min_eq_right hpos
  rw [hz] at hnl
  rw [go_zero_eq] at hnl
  constructor
  · intro t ht
    rw [lexEnd_some_eq M L t ht, hci] at hnl
    exact ⟨hnl, latch_of_done M _ rfl⟩
  · intro ht
    rw [lexEnd_none_eq M L ht] at hnl
    exact ⟨hnl, latch_of_done M _ rfl⟩

/-- C3 witness: over the input `1`, after the digit is consumed the next pull
finds no input; `try_finish` accepts the digit-run state and the lexeme `1`
is emitted, after which the stream is empty; the start state refuses, so a
lexer stuck in it at end of input emits nothing. -/
theorem claim_C3_eof_finalize_witness :
    ((∀ t, MD.try_finish DS.num = some t →
      next MD (⟨['1'], 1, 0, DS.num, false⟩ : Lexer DS) =
        (some (Except.ok t, slice ['1'] 0 1), ⟨['1'], 1, 1, DS.start, true⟩) ∧
      ∀ n, (next MD (skipPulls MD (⟨['1'], 1, 1, DS.start, true⟩ : Lexer DS) n)).1 = none) ∧
    (MD.try_finish DS.num = none →
      next MD (⟨['1'], 1, 0, DS.num, false⟩ : Lexer DS) =
        (none, ⟨['1'], 1, 0, DS.num, true⟩) ∧
      ∀ n, (next MD (skipPulls MD (⟨['1'], 1, 0, DS.num, true⟩ : Lexer DS) n)).1 = none)) :=
  claim_C3_eof_finalize MD ⟨['1'], 1, 0, DS.num, false⟩ (by rfl) (by decide)

/-- C4: the spans of yielded lexemes and the regions removed by `Discard`
partition the consumed prefix with no gaps and no overlaps: within a pull,
the covered region runs exactly from the previous lexeme boundary (`L.start`)
to the new one (`L'.start`), each span beginning where the previous one
ended; lexeme starts are monotonically non-decreasing across pulls. -/
theorem claim_C4_partition (M : State σ τ ε) (L : Lexer σ)
    (o : Option (TokenResult τ ε)) (L' : Lexer σ)
    (hInv : Inv L) (h : next M L = (o, L')) :
    L.start ≤ L'.start ∧ Inv L' ∧ L'.src = L.src ∧
    ∀ r s, o = some (r, s) →
      ∃ ds a, tiles L.start L'.start (ds ++ [(a, L'.start)]) ∧
        s = slice L.src a L'.start := by
  obtain ⟨k1, k2, k3, k4⟩ := next_main M L
  obtain ⟨m1, m2, m3, m4⟩ := k4 hInv
  rw [h] at k1 m1 m2 m4
  dsimp only at k1 m1 m2 m4
  refine ⟨m2, m1, k1, fun r s hrs => ?_⟩
  obtain ⟨ds, a, hds, hsl⟩ := m4 (r, s) hrs
  exact ⟨ds, a, hds, hsl⟩

/-- C4 witness: lexing ` 1` discards the blank and emits `1`; the discard
span `[0,1)` and the lexeme span `[1,2)` tile the consumed prefix exactly. -/
theorem claim_C4_partition_witness :
    (lex MD [' ', '1']).start ≤ (⟨[' ', '1'], 2, 2, DS.start, true⟩ : Lexer DS).start ∧
    Inv (⟨[' ', '1'], 2, 2, DS.start, true⟩ : Lexer DS) ∧
    (⟨[' ', '1'], 2, 2, DS.start, true⟩ : Lexer DS).src = (lex MD [' ', '1']).src ∧
    ∃ ds a,
      tiles (lex MD [' ', '1']).start (⟨[' ', '1'], 2, 2, DS.start, true⟩ : Lexer DS).start
        (ds ++ [(a, (⟨[' ', '1'], 2, 2, DS.start, true⟩ : Lexer DS).start)]) ∧
      ['1'] = slice (lex MD [' ', '1']).src a
        (⟨[' ', '1'], 2, 2, DS.start, true⟩ : Lexer DS).start := by
  have h := claim_C4_partition MD (lex MD [' ', '1'])
    (some (Except.ok (), ['1'])) ⟨[' ', '1'], 2, 2, DS.start, true⟩
    ⟨by decide, by decide⟩ (by rfl)
  exact ⟨h.1, h.2.1, h.2.2.1, h.2.2.2 (Except.ok ()) ['1'] rfl⟩

/-- C5 counterexample: on EMPTY input — input that ends exactly at a lexeme
boundary with an empty pending lexeme — the engine still consults
`try_finish` (here on the start state) and emits a finalization token with an
empty lexeme.  This contradicts the claim that `try_finish` is invoked only
mid-lexeme and that no finalization token can be emitted for an empty pending
lexeme. -/
theorem claim_C5_counterexample :
    next MEnd (lex MEnd []) = (some (Except.ok (), []), ⟨[], 0, 0, (), true⟩) := by
  rfl

/-- C5 (amended): `try_finish` is consulted on every pull that reaches the
end of input while the engine is not yet done — including when the input ends
exactly at a lexeme boundary, and on empty input — and if it returns
`some t` there, the engine emits a finalization token whose lexeme is empty.
(After an `Abort` the engine is latched and `try_finish` is indeed not
consulted, but `Discard`/`Finish` boundaries and empty input do reach it.) -/
theorem claim_C5_amended_eof_boundary (M : State σ τ ε) (L : Lexer σ) (t : τ)
    (hd : L.done = false) (hpos : L.pos = L.src.length) (hstart : L.start = L.pos)
    (htf : M.try_finish L.state = some t) :
    next M L = (some (Except.ok t, []), ⟨L.src, L.pos, L.src.length, M.default, true⟩) := by
  have hnl : next M L = lexLoopGo M (L.src.length - L.pos) L := by
    simp [next, hd, lexLoop]
  have hz : L.src.length - L.pos = 0 := by omega
  have hci : current_index L = L.src.length := Nat.min_eq_right (Nat.le_of_eq hpos.symm)
  rw [hz, go_zero_eq, lexEnd_some_eq M L t htf, hci] at hnl
  rw [hnl]
  have hsl : slice L.src L.start L.src.length = [] := by
    rw [hstart, hpos]
    simp [slice, Nat.sub_self]
  rw [hsl]

/-- C5 witness (for the amended claim): a lexer sitting at the end of `1 `
right after a lexeme boundary (empty pending lexeme) in the digit-run state
emits an empty-lexeme finalization token. -/
theorem claim_C5_amended_eof_boundary_witness :
    next MD (⟨['1', ' '], 2, 2, DS.num, false⟩ : Lexer DS) =
      (some (Except.ok (), []), ⟨['1', ' '], 2, 2, DS.start, true⟩) :=
  claim_C5_amended_eof_boundary MD ⟨['1', ' '], 2, 2, DS.num, false⟩ ()
    (by rfl) (by rfl) (by rfl) (by rfl)

/-- C6 counterexample: a client whose transition always answers
`Finish(t, false)` makes no progress — each pull emits an empty-lexeme token
without consuming anything — so the stream over the one-character input `a`
is infinite, refuting the claim for arbitrary `State` implementations. -/
theorem claim_C6_counterexample :
    ¬ ∃ N, ∀ k, N ≤ k → (next MBad (skipPulls MBad (lex MBad ['a']) k)).1 = none := by
  rintro ⟨N, hN⟩
  have hfix : ∀ k, skipPulls MBad (lex MBad ['a']) k = lex MBad ['a'] := by
    intro k
    induction k with
    | zero => rfl
    | succ k ih => rw [skipPulls, ih]; rfl
  have hnone := hN N (Nat.le_refl N)
  rw [hfix N] at hnone
  have hsome : (next MBad (lex MBad ['a'])).1 = some (Except.ok (), []) := rfl
  rw [hsome] at hnone
  exact absurd hnone (by simp)

/-- C6 (amended): for every source text, the stream is finite — after
finitely many pulls `next` returns `None` and keeps returning `None` —
provided the client automaton never answers `Finish(t, false)` from the start
state (such an answer finalizes an empty lexeme without consuming anything,
so a pull makes no progress; any other behavior consumes a character or
latches the engine on every pull). -/
theorem claim_C6_amended_finite (M : State σ τ ε)
    (hne : ∀ c t, M.handle_char M.default c ≠ Step.Finish t false) (src : List Char) :
    ∃ N, ∀ k, N ≤ k → (next M (skipPulls M (lex M src) k)).1 = none := by
  suffices haux : ∀ fuel (L : Lexer σ), Inv L → (L.done = true ∨ L.state = M.default) →
      L.src.length ≤ L.pos + fuel →
      ∃ N, ∀ k, N ≤ k → (next M (skipPulls M L k)).1 = none by
    exact haux src.length (lex M src) ⟨Nat.le_refl _, Nat.zero_le _⟩ (Or.inr rfl)
      (by simp [lex])
  intro fuel
  induction fuel with
  | zero =>
    intro L _ _ hf
    by_cases hd : L.done = true
    · exact ⟨0, fun k _ => latch_of_done M L hd k⟩
    · have hd' : L.done = false := by simpa using hd
      have hnl : next M L = lexLoopGo M (L.src.length - L.pos) L := by
        simp [next, hd', lexLoop]
      have hz : L.src.length - L.pos = 0 := by omega
      have hdone : (stepLexer M L).done = true := by
        show (next M L).2.done = true
        rw [hnl, hz, go_zero_eq]
        exact lexEnd_done_eq M L
      exact ⟨1, latch_after_one M L hdone⟩
  | succ f ihf =>
    intro L hInv hB hf
    by_cases hd : L.done = true
    · exact ⟨0, fun k _ => latch_of_done M L hd k⟩
    · have hd' : L.done = false := by simpa using hd
      have hst : L.state = M.default := by
        rcases hB with hB | hB
        · rw [hd'] at hB; exact absurd hB (by simp)
        · exact hB
      have hnl : next M L = lexLoopGo M (L.src.length - L.pos) L := by
        simp [next, hd', lexLoop]
      by_cases hdone : (next M L).2.done = true
      · exact ⟨1, latch_after_one M L hdone⟩
      · have hprog := go_progress M hne (L.src.length - L.pos) L hst
        rw [← hnl] at hprog
        have hlt : L.pos < (next M L).2.pos := by
          rcases hprog with hp | hp
          · exact absurd hp hdone
          · exact hp
        obtain ⟨g1, g2, g3, g4⟩ := next_main M L
        obtain ⟨m1, _, _, _⟩ := g4 hInv
        have hB' : (next M L).2.done = true ∨ (next M L).2.state = M.default := by
          rw [hnl]
          exact (go_main M (L.src.length - L.pos) L).2.2.1
        have hf' : (next M L).2.src.length ≤ (next M L).2.pos + f := by
          rw [g1]; omega
        obtain ⟨N', hN'⟩ := ihf (next M L).2 m1 hB' hf'
        refine ⟨N' + 1, fun k hk => ?_⟩
        have hsk : skipPulls M L k = skipPulls M (stepLexer M L) (k - 1) := by
          conv_lhs => rw [show k = 1 + (k - 1) by omega]
          rw [skipPulls_add]
          rfl
        rw [hsk]
        exact hN' (k - 1) (by omega)

/-- C6 witness: the digit automaton satisfies the progress condition, so
lexing `12 3` terminates. -/
theorem claim_C6_amended_finite_witness :
    ∃ N, ∀ k, N ≤ k →
      (next MD (skipPulls MD (lex MD ['1', '2', ' ', '3']) k)).1 = none :=
  claim_C6_amended_finite MD
    (by
      intro c t h
      by_cases h1 : c = ' ' <;> by_cases h2 : c.isDigit <;>
        simp [MD, h1, h2] at h)
    ['1', '2', ' ', '3']

/-- C7: within a single pull the engine keeps consuming characters for the
current lexeme as long as `handle_char` answers `Continue` (same state or a
new one) — the loop simply advances and continues, emitting nothing for that
character — and an item emitted without latching the engine can only come
from a `Finish` directive at or after the entry cursor.  Hence a
variable-length run is extended as long as `Continue` applies before a token
is emitted. -/
theorem claim_C7_maximal_munch (M : State σ τ ε) (L : Lexer σ) (c : Char)
    (hc : L.src[L.pos]? = some c) :
    (∀ ost, M.handle_char L.state c = Step.Continue ost →
      lexLoop M L = lexLoop M (advance { L with state := ost.getD L.state })) ∧
    (∀ x, (lexLoop M L).1 = some x → (lexLoop M L).2.done = false →
      ∃ j st c' t b, L.pos ≤ j ∧ L.src[j]? = some c' ∧
        M.handle_char st c' = Step.Finish t b ∧ x.1 = Except.ok t) := by
  have hlt : L.pos < L.src.length := pos_lt_of_peek hc
  obtain ⟨k, hk⟩ : ∃ k, L.src.length - L.pos = k + 1 :=
    ⟨L.src.length - L.pos - 1, by omega⟩
  constructor
  · intro ost hcont
    have hadv : advance { L with state := ost.getD L.state } =
        ⟨L.src, L.pos + 1, L.start, ost.getD L.state, L.done⟩ := by
      simp [advance, hlt]
    unfold lexLoop
    rw [hk, go_cont_eq M k L c ost hc hcont, hadv]
    have hfeq : (⟨L.src, L.pos + 1, L.start, ost.getD L.state, L.done⟩ : Lexer σ).src.length -
        (⟨L.src, L.pos + 1, L.start, ost.getD L.state, L.done⟩ : Lexer σ).pos = k := by
      dsimp only
      omega
    rw [hfeq]
  · intro x hx hdone
    unfold lexLoop at hx hdone
    exact go_fin M (L.src.length - L.pos) L x hx hdone

/-- C7 witness: in the digit-run state on input `12`, the digit `2` yields
`Continue`, so the pull continues from the advanced lexer; the pull's
emitted token traces back to a `Finish` directive. -/
theorem claim_C7_maximal_munch_witness :
    (∀ ost, MD.handle_char DS.num '2' = Step.Continue ost →
      lexLoop MD (⟨['1', '2'], 1, 0, DS.num, false⟩ : Lexer DS) =
        lexLoop MD (advance { (⟨['1', '2'], 1, 0, DS.num, false⟩ : Lexer DS) with
          state := ost.getD DS.num })) ∧
    (∀ x, (lexLoop MD (⟨['1', '2'], 1, 0, DS.num, false⟩ : Lexer DS)).1 = some x →
      (lexLoop MD (⟨['1', '2'], 1, 0, DS.num, false⟩ : Lexer DS)).2.done = false →
      ∃ j st c' t b, (⟨['1', '2'], 1, 0, DS.num, false⟩ : Lexer DS).pos ≤ j ∧
        (['1', '2'] : List Char)[j]? = some c' ∧
        MD.handle_char st c' = Step.Finish t b ∧ x.1 = Except.ok t) :=
  claim_C7_maximal_munch MD ⟨['1', '2'], 1, 0, DS.num, false⟩ '2' (by rfl)

/-- C8: every emitted lexeme is a contiguous character-aligned span
`[a, b)` of the source with `a ≤ b ≤ src.length` — so slicing cannot panic —
and in the UTF-8 encoding of the source the corresponding byte range runs
from `byteOffset src a` to `byteOffset src b`, both character-boundary
offsets (the offsets `char_indices` produces, or the total byte length), so
no emitted lexeme splits a multi-byte character. -/
theorem claim_C8_multibyte_safety (M : State σ τ ε) (L : Lexer σ)
    (o : Option (TokenResult τ ε)) (L' : Lexer σ)
    (hInv : Inv L) (h : next M L = (o, L')) :
    ∀ r s, o = some (r, s) →
      ∃ a b, a ≤ b ∧ b ≤ L.src.length ∧ s = slice L.src a b ∧
        byteOffset L.src a + utf8Len s = byteOffset L.src b := by
  intro r s hrs
  obtain ⟨k1, k2, k3, k4⟩ := next_main M L
  obtain ⟨m1, m2, m3, m4⟩ := k4 hInv
  rw [h] at m3 m4
  dsimp only at m3 m4
  obtain ⟨ds, a, hds, hsl⟩ := m4 (r, s) hrs
  dsimp only at hsl
  have hmem := tiles_mem (ds ++ [(a, L'.start)]) L.start L'.start a L'.start hds
    (by simp)
  refine ⟨a, L'.start, hmem.2.1, m3, hsl, ?_⟩
  rw [hsl]
  have hb := byteOffset_slice L.src a L'.start
  rw [show a + (L'.start - a) = L'.start by omega] at hb
  exact hb

/-- C8 witness: the source `é1` contains a two-byte character; the abort
lexeme `é` is the span `[0,1)`, whose byte range `[0,2)` is exactly the
character's encoding. -/
theorem claim_C8_multibyte_safety_witness :
    ∃ a b, a ≤ b ∧ b ≤ (lex MD ['é', '1']).src.length ∧
      (['é'] : List Char) = slice (lex MD ['é', '1']).src a b ∧
      byteOffset (lex MD ['é', '1']).src a + utf8Len ['é'] =
        byteOffset (lex MD ['é', '1']).src b :=
  claim_C8_multibyte_safety MD (lex MD ['é', '1'])
    (some (Except.error 'é', ['é'])) ⟨['é', '1'], 1, 1, DS.start, true⟩
    ⟨by decide, by decide⟩ (by rfl) (Except.error 'é') ['é'] rfl

/-- C9: purity and idempotence.  In this embedding `handle_char` and
`try_finish` are pure functions — mirroring the Rust trait, where both take
`&self` and return values — so the engine is deterministic by construction:
two fresh engines created by `lex` over identical source text yield
identical sequences of results when pulled any number of times. -/
theorem claim_C9_purity (M : State σ τ ε) (src1 src2 : List Char) (h : src1 = src2) :
    ∀ n, pulls M (lex M src1) n = pulls M (lex M src2) n := by
  subst h
  intro n
  rfl

/-- C9 witness: two fresh engines over `1 2` agree on their first three
pulls. -/
theorem claim_C9_purity_witness :
    pulls MD (lex MD ['1', ' ', '2']) 3 = pulls MD (lex MD ['1', ' ', '2']) 3 :=
  claim_C9_purity MD ['1', ' ', '2'] ['1', ' ', '2'] rfl 3

/-- C10: when `handle_char` returns `Discard` — even mid-lexeme, with
characters already accumulated — the whole accumulated span plus the current
character is dropped: the automaton resets to the start state, the next
lexeme begins at the offset just past the discarded character, the pull
continues from there, and every later emitted lexeme lies entirely at or
beyond that offset, so no token is ever produced for any of the discarded
text. -/
theorem claim_C10_discard_drops (M : State σ τ ε) (L : Lexer σ) (c : Char)
    (hc : L.src[L.pos]? = some c) (hdis : M.handle_char L.state c = Step.Discard) :
    discard_lexeme M L = ⟨L.src, L.pos + 1, L.pos + 1, M.default, L.done⟩ ∧
    lexLoop M L = lexLoop M (discard_lexeme M L) ∧
    ∀ n x, (next M (skipPulls M (discard_lexeme M L) n)).1 = some x →
      ∃ a b, L.pos + 1 ≤ a ∧ a ≤ b ∧ b ≤ L.src.length ∧ x.2 = slice L.src a b := by
  have hlt : L.pos < L.src.length := pos_lt_of_peek hc
  have hde := discard_lexeme_eq M L c hc
  obtain ⟨k, hk⟩ : ∃ k, L.src.length - L.pos = k + 1 :=
    ⟨L.src.length - L.pos - 1, by omega⟩
  refine ⟨hde, ?_, ?_⟩
  · unfold lexLoop
    rw [hk, go_discard_eq M k L c hc hdis, hde]
    have hfeq : (⟨L.src, L.pos + 1, L.pos + 1, M.default, L.done⟩ : Lexer σ).src.length -
        (⟨L.src, L.pos + 1, L.pos + 1, M.default, L.done⟩ : Lexer σ).pos = k := by
      dsimp only
      omega
    rw [hfeq]
  · intro n x hx
    have hsrc : (discard_lexeme M L).src = L.src := by rw [hde]
    have hstart : (discard_lexeme M L).start = L.pos + 1 := by rw [hde]
    have hInvd : Inv (discard_lexeme M L) := by
      rw [hde]
      exact ⟨Nat.le_refl _, by dsimp only; omega⟩
    obtain ⟨j1, j2, j3⟩ := skipPulls_main M (discard_lexeme M L) hInvd n
    obtain ⟨k1, k2, k3, k4⟩ := next_main M (skipPulls M (discard_lexeme M L) n)
    obtain ⟨m1, m2, m3, m4⟩ := k4 j1
    obtain ⟨ds, a, hds, hsl⟩ := m4 x hx
    have hmem := tiles_mem (ds ++ [(a, (next M (skipPulls M (discard_lexeme M L) n)).2.start)])
      (skipPulls M (discard_lexeme M L) n).start
      (next M (skipPulls M (discard_lexeme M L) n)).2.start a
      (next M (skipPulls M (discard_lexeme M L) n)).2.start hds (by simp)
    rw [hstart] at j3
    rw [j2, hsrc] at m3 hsl
    exact ⟨a, (next M (skipPulls M (discard_lexeme M L) n)).2.start,
      by omega, hmem.2.1, m3, hsl⟩

/-- C10 witness: a lexer that has accumulated `1` and meets a blank in the
start state discards the whole span `[0,2)`; the continued pull emits `2`,
whose span lies entirely beyond the discarded region. -/
theorem claim_C10_discard_drops_witness :
    (discard_lexeme MD (⟨['1', ' ', '2'], 1, 0, DS.start, false⟩ : Lexer DS) =
      ⟨['1', ' ', '2'], 2, 2, DS.start, false⟩) ∧
    (lexLoop MD (⟨['1', ' ', '2'], 1, 0, DS.start, false⟩ : Lexer DS) =
      lexLoop MD (discard_lexeme MD (⟨['1', ' ', '2'], 1, 0, DS.start, false⟩ : Lexer DS))) ∧
    ∃ a b, 2 ≤ a ∧ a ≤ b ∧ b ≤ (['1', ' ', '2'] : List Char).length ∧
      (['2'] : List Char) = slice ['1', ' ', '2'] a b := by
  have h := claim_C10_discard_drops MD ⟨['1', ' ', '2'], 1, 0, DS.start, false⟩ ' '
    (by rfl) (by rfl)
  refine ⟨h.1, h.2.1, ?_⟩
  obtain ⟨a, b, h1, h2, h3, h4⟩ := h.2.2 0 (Except.ok (), ['2']) (by rfl)
  exact ⟨a, b, h1, h2, h3, h4⟩

end Dragon
